import Mathlib

/-!
Shallow embedding of the core of `libvmod-prequal` (files `src/director.rs`,
`src/probe.rs`, `src/backend.rs`) and proofs about it.

Time is modelled in whole seconds as `Nat`; `SystemTime::now()` becomes an
explicit `now : Nat` argument threaded through every operation that reads the
clock.  `SystemTime::duration_since` returns `Err` when the argument lies in
the future, and the source calls `.unwrap()` on it, so an operation that would
panic is modelled as returning `none`.  The opaque `VCL_BACKEND` pointer that
gives a `Backend` its identity is modelled as a `Nat` handle.
-/

namespace Prequal

/-- Constant `MAX_PROBE_AGE` from `probe.rs` (5 seconds). -/
def MAX_PROBE_AGE : Nat := 5

/-- Constant `PROBE_TABLE_SIZE` from `probe.rs`. -/
def PROBE_TABLE_SIZE : Nat := 16

/-- Constant `MAX_USES_BEFORE_EXPIRE` from `probe.rs`. -/
def MAX_USES_BEFORE_EXPIRE : Nat := 3

/-- `Backend` from `backend.rs`: `name`, `address` (informational) and the
opaque `vcl_backend` pointer, modelled as a `Nat` handle.  The source's
`PartialEq` compares only `vcl_backend.0`, so all comparisons below are on
`handle`. -/
structure Backend where
  name : String
  address : String
  handle : Nat
deriving Repr, DecidableEq

/-- `ProbeResult` from `probe.rs`: one load sample.  `used_count` is an
`AtomicUsize` in the source; sequential operations read and write it plainly. -/
structure ProbeResult where
  timestamp : Nat
  rif : Nat
  est_latency : Nat
  used_count : Nat
  backend : Backend
deriving Repr, DecidableEq

/-- `ProbeResult::is_over_used`: `used_count >= MAX_USES_BEFORE_EXPIRE`. -/
def ProbeResult.isOverUsed (p : ProbeResult) : Bool :=
  decide (MAX_USES_BEFORE_EXPIRE ≤ p.used_count)

/-- `ProbeResult::increment_used`: bump the sample's counter, returning the new
value together with the updated sample (the source mutates in place through an
atomic and returns the new count). -/
def ProbeResult.incrementUsed (p : ProbeResult) : Nat × ProbeResult :=
  (p.used_count + 1, { p with used_count := p.used_count + 1 })

/-- `SystemTime::duration_since`: `Err` (here `none`) when the timestamp lies
in the future of `now`. -/
def durationSince (now ts : Nat) : Option Nat :=
  if ts ≤ now then some (now - ts) else none

/-- The retain predicate of `remove_stale_and_over_used`, in the case where
`duration_since` succeeds: the sample is neither over-used nor older than
`MAX_PROBE_AGE`.  (This is also the spec's notion of a *live* sample.) -/
def ProbeResult.isLive (now : Nat) (p : ProbeResult) : Bool :=
  !p.isOverUsed && decide (now - p.timestamp ≤ MAX_PROBE_AGE)

/-- `remove_stale_and_over_used` from `probe.rs`:
`results.retain(|p| !p.is_over_used() && now.duration_since(p.timestamp).unwrap() <= MAX_PROBE_AGE)`.
Because `&&` short-circuits, the `.unwrap()` is reached (and panics on a
future timestamp) only for samples that are not over-used; a panicking run is
modelled as `none`. -/
def removeStaleAndOverUsed (now : Nat) (results : List ProbeResult) :
    Option (List ProbeResult) :=
  if results.any (fun p => !p.isOverUsed && decide (now < p.timestamp)) then
    none
  else
    some (results.filter (fun p => p.isLive now))

/-- The hot/cold threshold.  The source computes `(max_rif as f64 * 0.8) as
usize`; we model it as `maxRif * 4 / 5 = ⌊0.8 · maxRif⌋`, which agrees with
the `f64` computation for every RIF value below `2^49` (the rounding error of
the `f64` constant `0.8` only becomes visible far beyond any realistic
requests-in-flight count). -/
def threshold (maxRif : Nat) : Nat :=
  maxRif * 4 / 5

/-- Helper for `maxByKeyLast`: left fold with accumulator `b`, replacing the
accumulator whenever the new key is `≥` the current one. -/
def maxByKeyAux (k : α → Nat) (b : α) : List α → α
  | [] => b
  | a :: l => maxByKeyAux k (if k b ≤ k a then a else b) l

/-- Rust's `Iterator::max_by_key`: `none` on an empty iterator, otherwise the
element with the greatest key, the *last* such element on ties. -/
def maxByKeyLast (k : α → Nat) : List α → Option α
  | [] => none
  | a :: l => some (maxByKeyAux k a l)

/-- Helper for `minByKeyFirst`: left fold with accumulator `b`, replacing the
accumulator only when the new key is strictly smaller. -/
def minByKeyAux (k : α → Nat) (b : α) : List α → α
  | [] => b
  | a :: l => minByKeyAux k (if k a < k b then a else b) l

/-- Rust's `Iterator::min_by_key`: `none` on an empty iterator, otherwise the
element with the least key, the *first* such element on ties. -/
def minByKeyFirst (k : α → Nat) : List α → Option α
  | [] => none
  | a :: l => some (minByKeyAux k a l)

/-- `remove_worst_probe` from `probe.rs`: partition the enumerated samples
into cold (`rif <= threshold`) and hot, then remove (by index) the hot sample
with the highest `est_latency`, falling back to the cold sample with the
highest `est_latency` when no hot sample exists. -/
def removeWorstProbe (results : List ProbeResult) (maxRif : Nat) :
    List ProbeResult :=
  if results.isEmpty then results
  else
    let T := threshold maxRif
    let coldIdx := results.enum.filter (fun ip => decide (ip.2.rif ≤ T))
    let hotIdx := results.enum.filter (fun ip => !decide (ip.2.rif ≤ T))
    match maxByKeyLast (fun ip => ip.2.est_latency) hotIdx with
    | some ip => results.eraseIdx ip.1
    | none =>
      match maxByKeyLast (fun ip => ip.2.est_latency) coldIdx with
      | some ip => results.eraseIdx ip.1
      | none => results

/-- `results.iter().map(|p| p.rif).max().unwrap_or(0)` from `add_result`. -/
def listMaxRif (l : List ProbeResult) : Nat :=
  l.foldl (fun m p => max m p.rif) 0

/-- `ProbeTable` from `probe.rs`: the sample vector and the cached `max_rif`
(an `AtomicUsize` in the source). -/
structure ProbeTable where
  results : List ProbeResult
  max_rif : Nat
deriving Repr, DecidableEq

/-- `ProbeTable::new()`. -/
def ProbeTable.empty : ProbeTable :=
  { results := [], max_rif := 0 }

/-- The contents of the table in `add_result` after pruning, removing any
sample with the incoming sample's backend, and appending the incoming sample
(`retain`, `retain`, `push`) — i.e. the full post-insert contents, before any
eviction. -/
def postInsertList (t : ProbeTable) (r : ProbeResult) (now : Nat) :
    Option (List ProbeResult) :=
  (removeStaleAndOverUsed now t.results).map (fun pruned =>
    pruned.filter (fun p => !(p.backend.handle == r.backend.handle)) ++ [r])

/-- The `while results.len() > PROBE_TABLE_SIZE { remove_worst_probe(..) }`
loop of `add_result`, with explicit fuel. -/
def evictFuel (maxRif : Nat) : Nat → List ProbeResult → List ProbeResult
  | 0, l => l
  | fuel + 1, l =>
    if PROBE_TABLE_SIZE < l.length then
      evictFuel maxRif fuel (removeWorstProbe l maxRif)
    else l

/-- The eviction loop of `add_result`; the list length is always enough fuel
because each `remove_worst_probe` on a non-empty list removes one element. -/
def evictLoop (l : List ProbeResult) (maxRif : Nat) : List ProbeResult :=
  evictFuel maxRif l.length l

/-- `ProbeTable::add_result`: prune, drop any sample with the same backend,
append the new sample, compute `max_rif` over these contents (the source
comment says "Calculate max_rif before removing worst probes"), evict while
over capacity, and finally store that same pre-eviction `max_rif`. -/
def addResult (t : ProbeTable) (r : ProbeResult) (now : Nat) :
    Option ProbeTable :=
  (postInsertList t r now).map (fun post =>
    let maxRif := listMaxRif post
    { results := evictLoop post maxRif, max_rif := maxRif })

/-- `ProbeTable::find_best`: early-return `None` on an empty vector (without
pruning); otherwise prune in place, clone the surviving samples, and pick the
cold sample with the least `est_latency`, falling back to the hot sample with
the least `rif`.  The partition uses the *cached* `max_rif`, not a recomputed
one.  The source then calls `best.increment_used()` — but `best` points into
the local `Vec` of clones built by `results.iter().cloned().collect()` (each
clone carries a fresh `AtomicUsize`), so the increment lands on a clone that
is dropped when the function returns and the stored `used_count`s are
unchanged.  The returned pair is (selected backend, table afterwards); `none`
models the panic inside pruning.  (The source enumerates the samples before
partitioning but discards the index of the chosen one, so the enumeration is
omitted here.) -/
def findBest (t : ProbeTable) (now : Nat) :
    Option (Option Backend × ProbeTable) :=
  if t.results.isEmpty then some (none, t)
  else
    (removeStaleAndOverUsed now t.results).map (fun pruned =>
      let T := threshold t.max_rif
      let cold := pruned.filter (fun p => decide (p.rif ≤ T))
      let hot := pruned.filter (fun p => !decide (p.rif ≤ T))
      let after : ProbeTable := { results := pruned, max_rif := t.max_rif }
      match minByKeyFirst (fun p => p.est_latency) cold with
      | some p => (some p.backend, after)
      | none =>
        match minByKeyFirst (fun p => p.rif) hot with
        | some p => (some p.backend, after)
        | none => (none, after))

/-- `ProbeTable::remove_backend`: drop every sample whose backend equals the
given one (equality is by handle); `max_rif` is not touched. -/
def purgeBackend (t : ProbeTable) (b : Backend) : ProbeTable :=
  { t with results := t.results.filter (fun p => !(p.backend.handle == b.handle)) }

/-- `ProbeTable::has_probes`: `!self.results.lock().unwrap().is_empty()` —
reads the raw vector, with no pruning of any kind. -/
def hasProbes (t : ProbeTable) : Bool :=
  !t.results.isEmpty

/-- `ProbeTable::remove_stale`: retain samples with
`now.duration_since(p.timestamp).unwrap() <= MAX_PROBE_AGE`.  Unlike
`remove_stale_and_over_used` there is no over-use check, so the `.unwrap()`
panics (modelled as `none`) on *any* future-stamped sample. -/
def removeStale (t : ProbeTable) (now : Nat) : Option ProbeTable :=
  if t.results.any (fun p => decide (now < p.timestamp)) then none
  else
    some { t with
      results := t.results.filter (fun p => decide (now - p.timestamp ≤ MAX_PROBE_AGE)) }

/-- `ProbeTable::len`. -/
def tableLen (t : ProbeTable) : Nat :=
  t.results.length

/-- `ProbeTable::has_enough_probes` (the spec's `is_above_half_full`):
`remove_stale` first, then `len >= PROBE_TABLE_SIZE / 2`. -/
def hasEnoughProbes (t : ProbeTable) (now : Nat) : Option (Bool × ProbeTable) :=
  (removeStale t now).map (fun t2 =>
    (decide (PROBE_TABLE_SIZE / 2 ≤ tableLen t2), t2))

/-- `DirectorError` from `director.rs`. -/
inductive DirectorError where
  | backendLockError (msg : String)
deriving Repr, DecidableEq

/-- `Director` from `director.rs`.  The probe-trigger channel is omitted: a
`send` on it has no effect on any state modelled here. -/
structure Director where
  backends : List Backend
  probe_table : ProbeTable
  probe_path : String
deriving Repr, DecidableEq

/-- A fresh director as built by `Director::new` (empty backend vector, empty
probe table, probe path `"/probe"`). -/
def Director.empty : Director :=
  { backends := [], probe_table := ProbeTable.empty, probe_path := "/probe" }

/-- `Director::add_backend`: `backends.push(backend)` — an unconditional
append, with no check whether a backend with the same handle is present. -/
def addBackend (d : Director) (b : Backend) : Director :=
  { d with backends := d.backends ++ [b] }

/-- `Director::remove_backend`: if some backend in the vector has the given
handle, purge its samples from the probe table and retain the rest of the
vector; otherwise do nothing at all. -/
def removeBackend (d : Director) (h : Nat) : Director :=
  match d.backends.find? (fun b => b.handle == h) with
  | some b =>
    { d with
      probe_table := purgeBackend d.probe_table b
      backends := d.backends.filter (fun b2 => !(b2.handle == h)) }
  | none => d

/-- `Director::get_backend`: error on an empty backend vector; otherwise send
a (modelled as effect-free) probe trigger, ask `find_best`, and return its
choice directly when there is one — the source performs no membership check
on the returned backend.  Otherwise fall back to
`backends[rand::random::<usize>() % backends.len()]`; the random draw is the
parameter `k`.  The outer `Option` models a panic inside `find_best`. -/
def getBackend (d : Director) (now k : Nat) :
    Option (Except DirectorError Backend × Director) :=
  match d.backends with
  | [] => some (Except.error (DirectorError.backendLockError "No backends available"), d)
  | b0 :: rest =>
    (findBest d.probe_table now).map (fun res =>
      match res.1 with
      | some b => (Except.ok b, { d with probe_table := res.2 })
      | none =>
        (Except.ok ((b0 :: rest).get
            ⟨k % (b0 :: rest).length, Nat.mod_lt _ (Nat.succ_pos _)⟩),
         { d with probe_table := res.2 }))

/-- `Director::is_healthy`: `probe_table.has_probes()`. -/
def isHealthy (d : Director) : Bool :=
  hasProbes d.probe_table

/-- One probe-table operation, for reasoning about arbitrary operation
sequences: `add_result`, `find_best`, `remove_backend` (purge),
`remove_stale` (the mutating part of `has_enough_probes`).  `has_probes` and
`len` do not change the table. -/
inductive TableOp where
  | insert (r : ProbeResult) (now : Nat)
  | select (now : Nat)
  | purge (b : Backend)
  | pruneStale (now : Nat)
deriving Repr, DecidableEq

/-- Apply one operation to the table; `none` models a panic. -/
def applyOp (t : ProbeTable) : TableOp → Option ProbeTable
  | .insert r now => addResult t r now
  | .select now => (findBest t now).map (fun res => res.2)
  | .purge b => some (purgeBackend t b)
  | .pruneStale now => removeStale t now

/-- Run a sequence of operations from a starting table. -/
def runOps (t : ProbeTable) : List TableOp → Option ProbeTable
  | [] => some t
  | op :: ops => (applyOp t op).bind (fun t2 => runOps t2 ops)

/-! ## Helper lemmas about the selection folds, `enum`, and the eviction loop -/

theorem minByKeyAux_mem (k : α → Nat) (b : α) (l : List α) :
    minByKeyAux k b l ∈ b :: l := by
  induction l generalizing b with
  | nil => simp [minByKeyAux]
  | cons a l ih =>
    have h := ih (if k a < k b then a else b)
    simp only [minByKeyAux]
    rcases List.mem_cons.mp h with h1 | h1
    · rw [h1]
      by_cases hab : k a < k b <;> simp [hab]
    · simp [h1]

theorem minByKeyAux_le (k : α → Nat) (b : α) (l : List α) :
    ∀ x ∈ b :: l, k (minByKeyAux k b l) ≤ k x := by
  induction l generalizing b with
  | nil =>
    intro x hx
    simp only [List.mem_singleton] at hx
    simp [minByKeyAux, hx]
  | cons a l ih =>
    intro x hx
    simp only [minByKeyAux]
    have hc : k (if k a < k b then a else b) ≤ k b ∧
        k (if k a < k b then a else b) ≤ k a := by
      by_cases hab : k a < k b
      · simp only [if_pos hab]; omega
      · simp only [if_neg hab]; omega
    rcases List.mem_cons.mp hx with h1 | h1
    · subst h1
      exact le_trans (ih _ _ (List.mem_cons_self _ _)) hc.1
    rcases List.mem_cons.mp h1 with h2 | h2
    · subst h2
      exact le_trans (ih _ _ (List.mem_cons_self _ _)) hc.2
    · exact ih _ x (List.mem_cons_of_mem _ h2)

theorem minByKeyFirst_eq_none_iff (k : α → Nat) (l : List α) :
    minByKeyFirst k l = none ↔ l = [] := by
  cases l <;> simp [minByKeyFirst]

theorem minByKeyFirst_mem (k : α → Nat) {l : List α} {a : α}
    (h : minByKeyFirst k l = some a) : a ∈ l := by
  cases l with
  | nil => simp [minByKeyFirst] at h
  | cons x xs =>
    simp only [minByKeyFirst, Option.some.injEq] at h
    rw [← h]
    exact minByKeyAux_mem k x xs

theorem minByKeyFirst_le (k : α → Nat) {l : List α} {a : α}
    (h : minByKeyFirst k l = some a) : ∀ x ∈ l, k a ≤ k x := by
  cases l with
  | nil => simp [minByKeyFirst] at h
  | cons x xs =>
    simp only [minByKeyFirst, Option.some.injEq] at h
    rw [← h]
    exact minByKeyAux_le k x xs

theorem maxByKeyAux_mem (k : α → Nat) (b : α) (l : List α) :
    maxByKeyAux k b l ∈ b :: l := by
  induction l generalizing b with
  | nil => simp [maxByKeyAux]
  | cons a l ih =>
    have h := ih (if k b ≤ k a then a else b)
    simp only [maxByKeyAux]
    rcases List.mem_cons.mp h with h1 | h1
    · rw [h1]
      by_cases hab : k b ≤ k a <;> simp [hab]
    · simp [h1]

theorem maxByKeyAux_ge (k : α → Nat) (b : α) (l : List α) :
    ∀ x ∈ b :: l, k x ≤ k (maxByKeyAux k b l) := by
  induction l generalizing b with
  | nil =>
    intro x hx
    simp only [List.mem_singleton] at hx
    simp [maxByKeyAux, hx]
  | cons a l ih =>
    intro x hx
    simp only [maxByKeyAux]
    have hc : k b ≤ k (if k b ≤ k a then a else b) ∧
        k a ≤ k (if k b ≤ k a then a else b) := by
      by_cases hab : k b ≤ k a
      · simp only [if_pos hab]; omega
      · simp only [if_neg hab]; omega
    rcases List.mem_cons.mp hx with h1 | h1
    · subst h1
      exact le_trans hc.1 (ih _ _ (List.mem_cons_self _ _))
    rcases List.mem_cons.mp h1 with h2 | h2
    · subst h2
      exact le_trans hc.2 (ih _ _ (List.mem_cons_self _ _))
    · exact ih _ x (List.mem_cons_of_mem _ h2)

theorem maxByKeyLast_eq_none_iff (k : α → Nat) (l : List α) :
    maxByKeyLast k l = none ↔ l = [] := by
  cases l <;> simp [maxByKeyLast]

theorem maxByKeyLast_mem (k : α → Nat) {l : List α} {a : α}
    (h : maxByKeyLast k l = some a) : a ∈ l := by
  cases l with
  | nil => simp [maxByKeyLast] at h
  | cons x xs =>
    simp only [maxByKeyLast, Option.some.injEq] at h
    rw [← h]
    exact maxByKeyAux_mem k x xs

theorem maxByKeyLast_ge (k : α → Nat) {l : List α} {a : α}
    (h : maxByKeyLast k l = some a) : ∀ x ∈ l, k x ≤ k a := by
  cases l with
  | nil => simp [maxByKeyLast] at h
  | cons x xs =>
    simp only [maxByKeyLast, Option.some.injEq] at h
    rw [← h]
    exact maxByKeyAux_ge k x xs

theorem mem_enum_spec {l : List α} {ip : Nat × α} (h : ip ∈ l.enum) :
    ∃ hlt : ip.1 < l.length, l.get ⟨ip.1, hlt⟩ = ip.2 := by
  obtain ⟨i, a⟩ := ip
  have h2 : l[i]? = some a := List.mem_enum_iff_getElem?.mp h
  rw [List.getElem?_eq_some] at h2
  obtain ⟨hlt, he⟩ := h2
  exact ⟨hlt, by simpa [List.get_eq_getElem] using he⟩

theorem enum_mem_of_mem {l : List α} {a : α} (h : a ∈ l) :
    ∃ i, (i, a) ∈ l.enum := by
  rw [List.mem_iff_getElem] at h
  obtain ⟨i, hlt, he⟩ := h
  exact ⟨i, List.mem_enum_iff_getElem?.mpr (by rw [List.getElem?_eq_some]; exact ⟨hlt, he⟩)⟩

theorem removeWorstProbe_spec (l : List ProbeResult) (m : Nat) (hne : l ≠ []) :
    ∃ i, ∃ hi : i < l.length,
      removeWorstProbe l m = l.eraseIdx i ∧
      ((∃ q ∈ l, threshold m < q.rif) →
        threshold m < (l.get ⟨i, hi⟩).rif ∧
        ∀ q ∈ l, threshold m < q.rif →
          q.est_latency ≤ (l.get ⟨i, hi⟩).est_latency) ∧
      ((∀ q ∈ l, q.rif ≤ threshold m) →
        ∀ q ∈ l, q.est_latency ≤ (l.get ⟨i, hi⟩).est_latency) := by
  have hie : l.isEmpty = false := by
    cases l with
    | nil => exact absurd rfl hne
    | cons a as => rfl
  unfold removeWorstProbe
  rw [hie]
  simp only [Bool.false_eq_true, if_false]
  cases hhot : maxByKeyLast (fun ip => ip.2.est_latency)
      (l.enum.filter (fun ip => !decide (ip.2.rif ≤ threshold m))) with
  | some ip =>
    have hmemf := maxByKeyLast_mem _ hhot
    rw [List.mem_filter] at hmemf
    obtain ⟨hmem, hpred⟩ := hmemf
    obtain ⟨hlt, hget⟩ := mem_enum_spec hmem
    have hiphot : threshold m < ip.2.rif := by
      simp only [Bool.not_eq_eq_eq_not, Bool.not_true, decide_eq_false_iff_not] at hpred
      omega
    refine ⟨ip.1, hlt, rfl, ?_, ?_⟩
    · intro _
      constructor
      · rw [hget]; exact hiphot
      · intro q hq hqhot
        obtain ⟨j, hj⟩ := enum_mem_of_mem hq
        have hjf : (j, q) ∈ l.enum.filter
            (fun ip => !decide (ip.2.rif ≤ threshold m)) := by
          rw [List.mem_filter]
          exact ⟨hj, by simp; omega⟩
        have := maxByKeyLast_ge _ hhot _ hjf
        rw [hget]
        exact this
    · intro hall
      have : ip.2 ∈ l := by rw [← hget]; exact List.get_mem l ip.1 hlt
      exact absurd (hall _ this) (by omega)
  | none =>
    have hhotempty : l.enum.filter (fun ip => !decide (ip.2.rif ≤ threshold m)) = [] :=
      (maxByKeyLast_eq_none_iff _ _).mp hhot
    cases hcold : maxByKeyLast (fun ip => ip.2.est_latency)
        (l.enum.filter (fun ip => decide (ip.2.rif ≤ threshold m))) with
    | some ip =>
      have hmemf := maxByKeyLast_mem _ hcold
      rw [List.mem_filter] at hmemf
      obtain ⟨hmem, _⟩ := hmemf
      obtain ⟨hlt, hget⟩ := mem_enum_spec hmem
      refine ⟨ip.1, hlt, rfl, ?_, ?_⟩
      · rintro ⟨q, hq, hqhot⟩
        obtain ⟨j, hj⟩ := enum_mem_of_mem hq
        have : (j, q) ∈ l.enum.filter
            (fun ip => !decide (ip.2.rif ≤ threshold m)) := by
          rw [List.mem_filter]
          exact ⟨hj, by simp; omega⟩
        rw [hhotempty] at this
        exact absurd this (List.not_mem_nil _)
      · intro hall q hq
        obtain ⟨j, hj⟩ := enum_mem_of_mem hq
        have hjf : (j, q) ∈ l.enum.filter
            (fun ip => decide (ip.2.rif ≤ threshold m)) := by
          rw [List.mem_filter]
          exact ⟨hj, by simp [hall q hq]⟩
        have := maxByKeyLast_ge _ hcold _ hjf
        rw [hget]
        exact this
    | none =>
      exfalso
      have hcoldempty : l.enum.filter (fun ip => decide (ip.2.rif ≤ threshold m)) = [] :=
        (maxByKeyLast_eq_none_iff _ _).mp hcold
      obtain ⟨a, ha⟩ := List.exists_mem_of_ne_nil l hne
      obtain ⟨j, hj⟩ := enum_mem_of_mem ha
      by_cases hc : a.rif ≤ threshold m
      · have : (j, a) ∈ l.enum.filter
            (fun ip => decide (ip.2.rif ≤ threshold m)) := by
          rw [List.mem_filter]; exact ⟨hj, by simp [hc]⟩
        rw [hcoldempty] at this
        exact List.not_mem_nil _ this
      · have : (j, a) ∈ l.enum.filter
            (fun ip => !decide (ip.2.rif ≤ threshold m)) := by
          rw [List.mem_filter]; exact ⟨hj, by simp [hc]⟩
        rw [hhotempty] at this
        exact List.not_mem_nil _ this

theorem removeWorstProbe_sublist (l : List ProbeResult) (m : Nat) :
    (removeWorstProbe l m).Sublist l := by
  cases l with
  | nil => simp [removeWorstProbe]
  | cons a as =>
    obtain ⟨i, hi, heq, -⟩ := removeWorstProbe_spec (a :: as) m (by simp)
    rw [heq]
    exact List.eraseIdx_sublist _ _

theorem removeWorstProbe_length (l : List ProbeResult) (m : Nat) (hne : l ≠ []) :
    (removeWorstProbe l m).length + 1 = l.length := by
  obtain ⟨i, hi, heq, -⟩ := removeWorstProbe_spec l m hne
  rw [heq, List.length_eraseIdx, if_pos hi]
  omega

theorem evictFuel_sublist (m fuel : Nat) (l : List ProbeResult) :
    (evictFuel m fuel l).Sublist l := by
  induction fuel generalizing l with
  | zero => exact List.Sublist.refl l
  | succ fuel ih =>
    simp only [evictFuel]
    split
    · exact (ih _).trans (removeWorstProbe_sublist l m)
    · exact List.Sublist.refl l

theorem evictFuel_length (m fuel : Nat) (l : List ProbeResult)
    (h : l.length ≤ PROBE_TABLE_SIZE + fuel) :
    (evictFuel m fuel l).length ≤ PROBE_TABLE_SIZE := by
  induction fuel generalizing l with
  | zero => simpa [evictFuel] using h
  | succ fuel ih =>
    simp only [evictFuel]
    split
    · rename_i hgt
      have hne : l ≠ [] := by
        intro he
        rw [he] at hgt
        simp [PROBE_TABLE_SIZE] at hgt
      have hlen := removeWorstProbe_length l m hne
      exact ih _ (by omega)
    · rename_i hle
      omega

theorem evictLoop_sublist (l : List ProbeResult) (m : Nat) :
    (evictLoop l m).Sublist l :=
  evictFuel_sublist m l.length l

theorem evictLoop_length (l : List ProbeResult) (m : Nat) :
    (evictLoop l m).length ≤ PROBE_TABLE_SIZE :=
  evictFuel_length m l.length l (by omega)

/-! ## Concrete fixtures used by counterexamples and witnesses -/

/-- A concrete backend with handle 1. -/
def exB1 : Backend := ⟨"b1", "1.1.1.1:80", 1⟩

/-- A concrete backend with handle 2. -/
def exB2 : Backend := ⟨"b2", "2.2.2.2:80", 2⟩

/-- A fresh, unused sample for `exB1` taken at time 0. -/
def exSample1 : ProbeResult := ⟨0, 1, 1, 0, exB1⟩

/-- A one-sample probe table holding `exSample1`, with cached `max_rif = 1`. -/
def exTable1 : ProbeTable := ⟨[exSample1], 1⟩

/-! ## Claims -/

/-- C8 counterexample: `add_backend` is not idempotent.  Adding the backend
`exB1` to a director that already contains it yields the vector
`[exB1, exB1]` — two entries with the same handle — rather than replacing the
prior entry. -/
theorem claim8_counterexample :
    (addBackend (addBackend Director.empty exB1) exB1).backends = [exB1, exB1] ∧
    (addBackend (addBackend Director.empty exB1) exB1).backends.countP
      (fun b => b.handle == exB1.handle) = 2 ∧
    addBackend (addBackend Director.empty exB1) exB1 ≠ addBackend Director.empty exB1 := by
  refine ⟨rfl, rfl, ?_⟩
  decide

/-- C8 (amended): `add_backend` appends the backend unconditionally; adding a
backend whose handle is already present produces an additional entry with
that handle (the prior entry is not replaced, and the set differs from the
one after a single `add_backend`). -/
theorem claim8_theorem (d : Director) (b : Backend) :
    (addBackend d b).backends = d.backends ++ [b] ∧
    (addBackend d b).backends.countP (fun x => x.handle == b.handle) =
      d.backends.countP (fun x => x.handle == b.handle) + 1 := by
  refine ⟨rfl, ?_⟩
  simp [addBackend, List.countP_append, List.countP_cons]

/-- C9: the age computation does **not** saturate at 0 under clock skew.  With
`now = 5` and a sample stamped `taken_at = 10` (in the future),
`ProbeTable::remove_stale` and `remove_stale_and_over_used` hit
`SystemTime::duration_since(..).unwrap()` on an `Err` and panic (modelled as
`none`) instead of treating the sample as fresh.  The only escape is the
short-circuit for an already over-used sample, which is then *dropped*, not
kept. -/
theorem claim9_bug :
    removeStale ⟨[⟨10, 1, 1, 0, exB1⟩], 1⟩ 5 = none ∧
    removeStaleAndOverUsed 5 [⟨10, 1, 1, 0, exB1⟩] = none ∧
    removeStaleAndOverUsed 5 [⟨10, 1, 1, 3, exB1⟩] = some [] := by
  refine ⟨?_, ?_, ?_⟩ <;> decide

/-- C10: for a handle absent from the backend vector, `remove_backend` is a
complete no-op: the backend vector, the probe table (even samples whose
backend has that very handle), and the probe path are all left unchanged. -/
theorem claim10_theorem (d : Director) (h : Nat)
    (habs : ∀ b ∈ d.backends, b.handle ≠ h) :
    removeBackend d h = d := by
  unfold removeBackend
  have hf : d.backends.find? (fun b => b.handle == h) = none := by
    rw [List.find?_eq_none]
    intro b hb
    simp [habs b hb]
  rw [hf]

/-- C10 witness: handle 7 is not among the director's backends, but the probe
table does hold a sample whose backend has handle 7; `remove_backend 7`
changes nothing — in particular that sample is not purged. -/
theorem claim10_witness :
    removeBackend ⟨[exB1], ⟨[⟨0, 1, 1, 0, ⟨"gone", "9.9.9.9:80", 7⟩⟩], 1⟩, "/probe"⟩ 7 =
      ⟨[exB1], ⟨[⟨0, 1, 1, 0, ⟨"gone", "9.9.9.9:80", 7⟩⟩], 1⟩, "/probe"⟩ :=
  claim10_theorem _ 7 (by decide)

/-- C2: `find_best` increments `used_count` only on a clone that is then
discarded, so the sample *as stored in the table* keeps `used_count = 0`: the
one-sample table `exTable1` is a fixed point of `select`, three consecutive
selects leave it unchanged, and a fourth select still returns the sample —
`MAX_USES` expiry through selection can never trigger. -/
theorem claim2_bug :
    findBest exTable1 0 = some (some exB1, exTable1) ∧
    runOps exTable1 [.select 0, .select 0, .select 0] = some exTable1 ∧
    (exTable1.results.map (fun p => p.used_count)) = [0] := by
  refine ⟨?_, ?_, ?_⟩ <;> decide

/-- C7 counterexample: `has_probes` and `len` read the raw vector without any
pruning — `has_probes` reports `true` for a table whose only sample is stale
at `now = 10`, and `len` counts an over-used sample; moreover
`has_enough_probes` (`is_above_half_full`) prunes only stale samples and
still observes an over-used one. -/
theorem claim7_counterexample :
    hasProbes ⟨[⟨0, 1, 1, 0, exB1⟩], 1⟩ = true ∧
    ProbeResult.isLive 10 ⟨0, 1, 1, 0, exB1⟩ = false ∧
    tableLen ⟨[⟨0, 1, 1, 3, exB1⟩], 1⟩ = 1 ∧
    ProbeResult.isLive 10 ⟨0, 1, 1, 3, exB1⟩ = false ∧
    hasEnoughProbes ⟨[⟨0, 1, 1, 3, exB1⟩], 1⟩ 0 =
      some (false, ⟨[⟨0, 1, 1, 3, exB1⟩], 1⟩) := by
  refine ⟨?_, ?_, ?_, ?_, ?_⟩ <;> decide

/-- C7 (amended): the operations that prune before acting are `add_result`
and `find_best` (both stale and over-used samples) and `has_enough_probes`
(stale samples only); `has_probes`, `len` and the display snapshot read the
raw contents and may observe stale or over-used samples.  Consequently, after
a completed `find_best` every stored sample is live at `now`, and after a
completed `has_enough_probes` every stored sample has age at most
`MAX_PROBE_AGE`. -/
theorem claim7_theorem (t : ProbeTable) (now : Nat) :
    (∀ res t2, findBest t now = some (res, t2) →
      ∀ p ∈ t2.results, p.isLive now = true) ∧
    (∀ b t2, hasEnoughProbes t now = some (b, t2) →
      ∀ p ∈ t2.results, now - p.timestamp ≤ MAX_PROBE_AGE) := by
  constructor
  · intro res t2 h p hp
    unfold findBest at h
    by_cases he : t.results.isEmpty
    · rw [if_pos he] at h
      injection h with h
      have ht : t = t2 := congrArg Prod.snd h
      rw [← ht] at hp
      rw [List.isEmpty_iff] at he
      rw [he] at hp
      exact absurd hp (List.not_mem_nil p)
    · rw [if_neg he] at h
      rw [Option.map_eq_some'] at h
      obtain ⟨pruned, hrs, hf⟩ := h
      have ht2 : t2.results = pruned := by
        have := congrArg Prod.snd hf
        cases hcold : minByKeyFirst (fun p => p.est_latency)
            (pruned.filter (fun p => decide (p.rif ≤ threshold t.max_rif))) <;>
          cases hhot : minByKeyFirst (fun p => p.rif)
              (pruned.filter (fun p => !decide (p.rif ≤ threshold t.max_rif))) <;>
          simp only [hcold, hhot] at this <;> rw [← this]
      rw [ht2] at hp
      unfold removeStaleAndOverUsed at hrs
      by_cases hpanic : t.results.any (fun p => !p.isOverUsed && decide (now < p.timestamp))
      · rw [if_pos hpanic] at hrs
        exact absurd hrs (by simp)
      · rw [if_neg hpanic] at hrs
        injection hrs with hrs
        rw [← hrs] at hp
        exact (List.mem_filter.mp hp).2
  · intro b t2 h p hp
    unfold hasEnoughProbes at h
    rw [Option.map_eq_some'] at h
    obtain ⟨t3, hrs, hf⟩ := h
    have ht2 : t2 = t3 := (congrArg Prod.snd hf).symm
    subst ht2
    unfold removeStale at hrs
    by_cases hpanic : t.results.any (fun p => decide (now < p.timestamp))
    · rw [if_pos hpanic] at hrs
      exact absurd hrs (by simp)
    · rw [if_neg hpanic] at hrs
      injection hrs with hrs
      rw [← hrs] at hp
      have := (List.mem_filter.mp hp).2
      simpa using this

/-- C7 witness: instantiating the amended theorem at the live one-sample
table `exTable1` and `now = 0`: both pruning operations succeed there and
every surviving sample is live / fresh. -/
theorem claim7_witness :
    (∀ p ∈ exTable1.results, p.isLive 0 = true) ∧
    (∀ p ∈ exTable1.results, 0 - p.timestamp ≤ MAX_PROBE_AGE) :=
  ⟨(claim7_theorem exTable1 0).1 (some exB1) exTable1 (by decide),
   (claim7_theorem exTable1 0).2 false exTable1 (by decide)⟩

deriving instance DecidableEq for Except

/-- A director whose backend vector holds only `exB1` while the probe table
holds a sample for `exB2`, which is **not** in the backend vector. -/
def c1dir : Director := ⟨[exB1], ⟨[⟨0, 1, 1, 0, exB2⟩], 1⟩, "/probe"⟩

/-- C1 counterexample: `get_backend` performs no membership check on the
table's selection.  On `c1dir` (non-empty backend set, probe table yielding a
selection) it returns `exB2`, whose handle belongs to no backend in the
current backend set. -/
theorem claim1_counterexample :
    getBackend c1dir 0 0 = some (Except.ok exB2, c1dir) ∧
    ∀ b ∈ c1dir.backends, b.handle ≠ exB2.handle := by
  refine ⟨?_, ?_⟩ <;> decide

/-- C1 (amended): when the backend set is non-empty, `get_backend` returns
whatever backend `find_best` selects, *without* verifying that it is still a
member of the backend set; only when the table yields no selection does it
fall back to a backend drawn from the set (at the random index `k`). -/
theorem claim1_theorem (d : Director) (now k : Nat) (hne : d.backends ≠ []) :
    (∀ b t2, findBest d.probe_table now = some (some b, t2) →
      getBackend d now k = some (Except.ok b, { d with probe_table := t2 })) ∧
    (∀ t2, findBest d.probe_table now = some (none, t2) →
      ∃ b ∈ d.backends,
        getBackend d now k = some (Except.ok b, { d with probe_table := t2 })) := by
  cases hd : d.backends with
  | nil => exact absurd hd hne
  | cons b0 rest =>
    constructor
    · intro b t2 hfb
      unfold getBackend
      rw [hd, hfb]
      rfl
    · intro t2 hfb
      refine ⟨(b0 :: rest).get ⟨k % (b0 :: rest).length, Nat.mod_lt _ (Nat.succ_pos _)⟩,
        ?_, ?_⟩
      · exact List.get_mem _ _ _
      · unfold getBackend
        rw [hd, hfb]
        rfl

/-- C1 witness: the selection branch is exercised on `c1dir` (the table
selects `exB2` and `get_backend` hands it through), and the fallback branch
on a director with an empty probe table (the result is then drawn from the
backend set). -/
theorem claim1_witness :
    getBackend c1dir 0 0 =
      some (Except.ok exB2, { c1dir with probe_table := c1dir.probe_table }) ∧
    ∃ b ∈ (⟨[exB1], ProbeTable.empty, "/probe"⟩ : Director).backends,
      getBackend ⟨[exB1], ProbeTable.empty, "/probe"⟩ 0 0 =
        some (Except.ok b,
          { (⟨[exB1], ProbeTable.empty, "/probe"⟩ : Director) with
              probe_table := ProbeTable.empty }) :=
  ⟨(claim1_theorem c1dir 0 0 (by decide)).1 exB2 c1dir.probe_table (by decide),
   (claim1_theorem ⟨[exB1], ProbeTable.empty, "/probe"⟩ 0 0 (by decide)).2
     ProbeTable.empty (by decide)⟩

/-- C3 counterexample: starting from the empty table, insert a sample with
`rif = 10` at time 0 and one with `rif = 1` at time 4, then `select` at time
6.  The select prunes the first sample (stale) but leaves the cached
`max_rif` at 10, while the maximum `rif` over the surviving contents is 1 —
so after this operation the cached `max_rif` does not equal the maximum over
the samples currently in the table. -/
theorem claim3_counterexample :
    runOps ProbeTable.empty
      [.insert ⟨0, 10, 5, 0, exB1⟩ 0, .insert ⟨4, 1, 7, 0, exB2⟩ 4, .select 6] =
      some ⟨[⟨4, 1, 7, 0, exB2⟩], 10⟩ ∧
    (⟨[⟨4, 1, 7, 0, exB2⟩], 10⟩ : ProbeTable).max_rif ≠
      listMaxRif (⟨[⟨4, 1, 7, 0, exB2⟩], 10⟩ : ProbeTable).results := by
  refine ⟨?_, ?_⟩ <;> decide

/-- C3 (amended): `add_result` stores as `max_rif` the maximum `rif` over the
pruned, deduplicated, appended contents — computed *before* eviction — and
`find_best`, `purge_backend` and `remove_stale` leave the cached `max_rif`
unchanged even when their pruning removes the sample that attained it, so
after those operations `max_rif` may exceed the maximum over the surviving
contents. -/
theorem claim3_theorem (t : ProbeTable) (r : ProbeResult) (now : Nat) :
    (∀ post, postInsertList t r now = some post →
      addResult t r now =
        some { results := evictLoop post (listMaxRif post),
               max_rif := listMaxRif post }) ∧
    (∀ res t2, findBest t now = some (res, t2) → t2.max_rif = t.max_rif) ∧
    (purgeBackend t r.backend).max_rif = t.max_rif ∧
    (∀ t2, removeStale t now = some t2 → t2.max_rif = t.max_rif) := by
  refine ⟨?_, ?_, rfl, ?_⟩
  · intro post hpost
    unfold addResult
    rw [hpost]
    rfl
  · intro res t2 h
    unfold findBest at h
    by_cases he : t.results.isEmpty
    · rw [if_pos he] at h
      injection h with h
      have : t = t2 := congrArg Prod.snd h
      rw [← this]
    · rw [if_neg he] at h
      rw [Option.map_eq_some'] at h
      obtain ⟨pruned, _, hf⟩ := h
      have := congrArg Prod.snd hf
      cases hcold : minByKeyFirst (fun p => p.est_latency)
          (pruned.filter (fun p => decide (p.rif ≤ threshold t.max_rif))) <;>
        cases hhot : minByKeyFirst (fun p => p.rif)
            (pruned.filter (fun p => !decide (p.rif ≤ threshold t.max_rif))) <;>
        simp only [hcold, hhot] at this <;> rw [← this]
  · intro t2 h
    unfold removeStale at h
    by_cases hpanic : t.results.any (fun p => decide (now < p.timestamp))
    · rw [if_pos hpanic] at h
      exact absurd h (by simp)
    · rw [if_neg hpanic] at h
      injection h with h
      rw [← h]

/-- C3 witness: the amended theorem instantiated on the one-sample table
`exTable1` with an incoming sample for `exB2` at time 0: the stored `max_rif`
is the pre-eviction maximum 2, and `find_best` / `remove_stale` leave the
cache untouched. -/
theorem claim3_witness :
    addResult exTable1 ⟨0, 2, 2, 0, exB2⟩ 0 =
      some { results := evictLoop [exSample1, ⟨0, 2, 2, 0, exB2⟩]
               (listMaxRif [exSample1, ⟨0, 2, 2, 0, exB2⟩]),
             max_rif := listMaxRif [exSample1, ⟨0, 2, 2, 0, exB2⟩] } ∧
    (⟨[exSample1], 1⟩ : ProbeTable).max_rif = exTable1.max_rif ∧
    (⟨[exSample1], 1⟩ : ProbeTable).max_rif = exTable1.max_rif :=
  ⟨(claim3_theorem exTable1 ⟨0, 2, 2, 0, exB2⟩ 0).1
      [exSample1, ⟨0, 2, 2, 0, exB2⟩] (by decide),
   (claim3_theorem exTable1 ⟨0, 2, 2, 0, exB2⟩ 0).2.1 (some exB1) ⟨[exSample1], 1⟩
      (by decide),
   (claim3_theorem exTable1 ⟨0, 2, 2, 0, exB2⟩ 0).2.2.2 ⟨[exSample1], 1⟩ (by decide)⟩

/-- C4: the HCL selection rule of `find_best`.  Whenever `find_best` completes
(returning `res`, with `res.2.results` the samples it selected over), if the
cold part of those samples — `rif ≤ ⌊0.8 · max_rif⌋` for the table's cached
`max_rif` — is non-empty, the returned backend is that of a cold sample with
minimal `est_latency` among the cold samples; if every sample is hot, the
returned backend is that of a hot sample with minimal `rif`. -/
theorem claim4_theorem (t : ProbeTable) (now : Nat)
    (res : Option Backend × ProbeTable) (h : findBest t now = some res) :
    ((∃ p ∈ res.2.results, p.rif ≤ threshold t.max_rif) →
      ∃ p ∈ res.2.results, p.rif ≤ threshold t.max_rif ∧ res.1 = some p.backend ∧
        ∀ q ∈ res.2.results, q.rif ≤ threshold t.max_rif →
          p.est_latency ≤ q.est_latency) ∧
    ((res.2.results ≠ [] ∧ ∀ p ∈ res.2.results, threshold t.max_rif < p.rif) →
      ∃ p ∈ res.2.results, threshold t.max_rif < p.rif ∧ res.1 = some p.backend ∧
        ∀ q ∈ res.2.results, p.rif ≤ q.rif) := by
  unfold findBest at h
  by_cases he : t.results.isEmpty
  · rw [if_pos he] at h
    injection h with h
    rw [← h]
    rw [List.isEmpty_iff] at he
    constructor
    · rintro ⟨p, hp, -⟩
      rw [he] at hp
      exact absurd hp (List.not_mem_nil p)
    · rintro ⟨hne, -⟩
      rw [he] at hne
      exact absurd rfl hne
  · rw [if_neg he, Option.map_eq_some'] at h
    obtain ⟨pruned, -, hf⟩ := h
    simp only [] at hf
    cases hcold : minByKeyFirst (fun p => p.est_latency)
        (pruned.filter (fun p => decide (p.rif ≤ threshold t.max_rif))) with
    | some p =>
      rw [hcold] at hf
      rw [← hf]
      have hpmem := minByKeyFirst_mem _ hcold
      rw [List.mem_filter] at hpmem
      obtain ⟨hpmem, hpcold⟩ := hpmem
      rw [decide_eq_true_eq] at hpcold
      constructor
      · intro _
        refine ⟨p, hpmem, hpcold, rfl, ?_⟩
        intro q hq hqcold
        exact minByKeyFirst_le _ hcold q
          (List.mem_filter.mpr ⟨hq, by simp [hqcold]⟩)
      · rintro ⟨-, hall⟩
        exact absurd (hall p hpmem) (by omega)
    | none =>
      have hcoldnil := (minByKeyFirst_eq_none_iff _ _).mp hcold
      rw [hcold] at hf
      cases hhot : minByKeyFirst (fun p => p.rif)
          (pruned.filter (fun p => !decide (p.rif ≤ threshold t.max_rif))) with
      | some p =>
        rw [hhot] at hf
        rw [← hf]
        have hpmem := minByKeyFirst_mem _ hhot
        rw [List.mem_filter] at hpmem
        obtain ⟨hpmem, hphot⟩ := hpmem
        have hphot2 : threshold t.max_rif < p.rif := by
          simp only [Bool.not_eq_eq_eq_not, Bool.not_true, decide_eq_false_iff_not] at hphot
          omega
        constructor
        · rintro ⟨q, hq, hqcold⟩
          have : q ∈ pruned.filter
              (fun p => decide (p.rif ≤ threshold t.max_rif)) :=
            List.mem_filter.mpr ⟨hq, by simp [hqcold]⟩
          rw [hcoldnil] at this
          exact absurd this (List.not_mem_nil q)
        · rintro ⟨-, hall⟩
          refine ⟨p, hpmem, hphot2, rfl, ?_⟩
          intro q hq
          have hqhot := hall q hq
          exact minByKeyFirst_le _ hhot q
            (List.mem_filter.mpr ⟨hq, by simp; omega⟩)
      | none =>
        have hhotnil := (minByKeyFirst_eq_none_iff _ _).mp hhot
        rw [hhot] at hf
        rw [← hf]
        have hnil : pruned = [] := by
          rw [List.eq_nil_iff_forall_not_mem]
          intro q hq
          by_cases hc : q.rif ≤ threshold t.max_rif
          · have : q ∈ pruned.filter
                (fun p => decide (p.rif ≤ threshold t.max_rif)) :=
              List.mem_filter.mpr ⟨hq, by simp [hc]⟩
            rw [hcoldnil] at this
            exact List.not_mem_nil q this
          · have : q ∈ pruned.filter
                (fun p => !decide (p.rif ≤ threshold t.max_rif)) :=
              List.mem_filter.mpr ⟨hq, by simp [hc]⟩
            rw [hhotnil] at this
            exact List.not_mem_nil q this
        constructor
        · rintro ⟨p, hp, -⟩
          rw [hnil] at hp
          exact absurd hp (List.not_mem_nil p)
        · rintro ⟨hne, -⟩
          rw [hnil] at hne
          exact absurd rfl hne

/-- The spec's scenario S2: samples `(rif 5, lat 200)`, `(rif 6, lat 100)`,
`(rif 90, lat 50)` with cached `max_rif = 90` (threshold 72). -/
def c4table : ProbeTable :=
  ⟨[⟨0, 5, 200, 0, exB1⟩, ⟨0, 6, 100, 0, exB2⟩,
    ⟨0, 90, 50, 0, ⟨"b3", "3.3.3.3:80", 3⟩⟩], 90⟩

/-- The value `find_best` returns on `c4table` at time 0: it selects `exB2`
(cold, least latency) and leaves the contents unchanged. -/
def c4res : Option Backend × ProbeTable := (some exB2, c4table)

/-- C4 witness: on scenario S2 (`c4table`) the cold part is non-empty and the
select returns the cold sample with the least latency, `exB2`. -/
theorem claim4_witness :
    (∃ p ∈ c4res.2.results, p.rif ≤ threshold c4table.max_rif ∧
      c4res.1 = some p.backend ∧
      ∀ q ∈ c4res.2.results, q.rif ≤ threshold c4table.max_rif →
        p.est_latency ≤ q.est_latency) :=
  (claim4_theorem c4table 0 c4res (by decide)).1 (by decide)

theorem evictFuel_of_le (m fuel : Nat) (l : List ProbeResult)
    (h : ¬ PROBE_TABLE_SIZE < l.length) : evictFuel m fuel l = l := by
  cases fuel with
  | zero => rfl
  | succ fuel => simp [evictFuel, h]

/-- C5: inverse-HCL eviction in `add_result`.  Starting from a table within
capacity, let `post` be the full post-insert contents (pruned, deduplicated,
with the new sample appended).  If `post` is within capacity nothing is
evicted; otherwise the eviction loop brings the size back to
`PROBE_TABLE_SIZE` by removing an element at some index of `post` — one that
is hot with the highest `est_latency` among hot samples when the hot part of
`post` is non-empty, and otherwise has the highest `est_latency` overall
(i.e. among the all-cold `post`) — where hot/cold is computed over all of
`post`, the newly inserted sample included, at threshold
`⌊0.8 · max(rif over post)⌋`. -/
theorem claim5_theorem (t : ProbeTable) (r : ProbeResult) (now : Nat)
    (post : List ProbeResult) (t2 : ProbeTable)
    (hlen : t.results.length ≤ PROBE_TABLE_SIZE)
    (hpost : postInsertList t r now = some post)
    (hadd : addResult t r now = some t2) :
    t2.results.length ≤ PROBE_TABLE_SIZE ∧
    (post.length ≤ PROBE_TABLE_SIZE → t2.results = post) ∧
    (PROBE_TABLE_SIZE < post.length →
      ∃ i, ∃ hi : i < post.length,
        t2.results = post.eraseIdx i ∧
        ((∃ q ∈ post, threshold (listMaxRif post) < q.rif) →
          threshold (listMaxRif post) < (post.get ⟨i, hi⟩).rif ∧
          ∀ q ∈ post, threshold (listMaxRif post) < q.rif →
            q.est_latency ≤ (post.get ⟨i, hi⟩).est_latency) ∧
        ((∀ q ∈ post, q.rif ≤ threshold (listMaxRif post)) →
          ∀ q ∈ post, q.est_latency ≤ (post.get ⟨i, hi⟩).est_latency)) := by
  have ht2 : t2 = ProbeTable.mk (evictLoop post (listMaxRif post)) (listMaxRif post) := by
    unfold addResult at hadd
    rw [hpost] at hadd
    simp only [Option.map_some'] at hadd
    injection hadd with hadd
    exact hadd.symm
  have hplen : post.length ≤ PROBE_TABLE_SIZE + 1 := by
    unfold postInsertList at hpost
    rw [Option.map_eq_some'] at hpost
    obtain ⟨pruned, hrs, hp⟩ := hpost
    have h1 : pruned.length ≤ t.results.length := by
      unfold removeStaleAndOverUsed at hrs
      by_cases hpanic : t.results.any (fun p => !p.isOverUsed && decide (now < p.timestamp))
      · rw [if_pos hpanic] at hrs
        exact absurd hrs (by simp)
      · rw [if_neg hpanic] at hrs
        injection hrs with hrs
        rw [← hrs]
        exact (List.filter_sublist _).length_le
    have h2 : (pruned.filter
        (fun p => !(p.backend.handle == r.backend.handle))).length ≤ pruned.length :=
      (List.filter_sublist _).length_le
    rw [← hp]
    simp only [List.length_append, List.length_singleton]
    omega
  refine ⟨?_, ?_, ?_⟩
  · rw [ht2]
    exact evictLoop_length post (listMaxRif post)
  · intro hle
    rw [ht2]
    exact evictFuel_of_le _ _ _ (by omega)
  · intro hgt
    have hp17 : post.length = PROBE_TABLE_SIZE + 1 := by omega
    have hne : post ≠ [] := by
      intro he
      rw [he] at hgt
      simp [PROBE_TABLE_SIZE] at hgt
    obtain ⟨i, hi, heq, hprop⟩ := removeWorstProbe_spec post (listMaxRif post) hne
    refine ⟨i, hi, ?_, hprop⟩
    rw [ht2]
    show evictLoop post (listMaxRif post) = post.eraseIdx i
    unfold evictLoop
    rw [hp17]
    show evictFuel (listMaxRif post) (PROBE_TABLE_SIZE + 1) post = post.eraseIdx i
    rw [evictFuel]
    rw [if_pos hgt, heq]
    apply evictFuel_of_le
    rw [List.length_eraseIdx, if_pos hi]
    omega

/-- The spec's scenario S6: sixteen cold samples with ascending latencies
10, 20, …, 160 (all `rif = 5`), cached `max_rif = 5`. -/
def sixteenCold : List ProbeResult :=
  (List.range 16).map (fun i => ⟨0, 5, 10 * (i + 1), 0, ⟨"c", "0.0.0.0:1", i + 10⟩⟩)

/-- The hot sample inserted into the full table in scenario S6. -/
def hotSample : ProbeResult := ⟨0, 100, 50, 0, ⟨"hot", "8.8.8.8:80", 99⟩⟩

/-- C5 witness: scenario S6 — inserting the hot sample into the full
`sixteenCold` table makes `post` the seventeen samples with `max_rif = 100`
(threshold 80); the eviction removes the element at index 16, which is the
new hot sample itself (it is hot and the only hot one), so the table contents
are unchanged. -/
theorem claim5_witness :
    ∃ i, ∃ hi : i < (sixteenCold ++ [hotSample]).length,
      (⟨sixteenCold, 100⟩ : ProbeTable).results =
        (sixteenCold ++ [hotSample]).eraseIdx i ∧
      ((∃ q ∈ sixteenCold ++ [hotSample],
          threshold (listMaxRif (sixteenCold ++ [hotSample])) < q.rif) →
        threshold (listMaxRif (sixteenCold ++ [hotSample])) <
          ((sixteenCold ++ [hotSample]).get ⟨i, hi⟩).rif ∧
        ∀ q ∈ sixteenCold ++ [hotSample],
          threshold (listMaxRif (sixteenCold ++ [hotSample])) < q.rif →
            q.est_latency ≤ ((sixteenCold ++ [hotSample]).get ⟨i, hi⟩).est_latency) ∧
      ((∀ q ∈ sixteenCold ++ [hotSample],
          q.rif ≤ threshold (listMaxRif (sixteenCold ++ [hotSample]))) →
        ∀ q ∈ sixteenCold ++ [hotSample],
          q.est_latency ≤ ((sixteenCold ++ [hotSample]).get ⟨i, hi⟩).est_latency) :=
  (claim5_theorem ⟨sixteenCold, 5⟩ hotSample 0 (sixteenCold ++ [hotSample])
    ⟨sixteenCold, 100⟩ (by decide) (by decide) (by decide)).2.2 (by decide)

/-- The probe-table invariant of C6: at most `PROBE_TABLE_SIZE` samples, and
no two samples share a backend handle. -/
def tableInv (t : ProbeTable) : Prop :=
  t.results.length ≤ PROBE_TABLE_SIZE ∧
  t.results.Pairwise (fun a b => a.backend.handle ≠ b.backend.handle)

theorem tableInv_of_sublist (t2 t : ProbeTable)
    (hs : t2.results.Sublist t.results) (hinv : tableInv t) : tableInv t2 :=
  ⟨hs.length_le.trans hinv.1, hinv.2.sublist hs⟩

theorem findBest_results_sublist (t : ProbeTable) (now : Nat)
    (res : Option Backend × ProbeTable) (h : findBest t now = some res) :
    res.2.results.Sublist t.results := by
  unfold findBest at h
  by_cases he : t.results.isEmpty
  · rw [if_pos he] at h
    injection h with h
    have ht : t = res.2 := congrArg Prod.snd h
    rw [← ht]
  · rw [if_neg he, Option.map_eq_some'] at h
    obtain ⟨pruned, hrs, hf⟩ := h
    simp only [] at hf
    have hres : res.2.results = pruned := by
      have := congrArg Prod.snd hf
      cases hcold : minByKeyFirst (fun p => p.est_latency)
          (pruned.filter (fun p => decide (p.rif ≤ threshold t.max_rif))) <;>
        cases hhot : minByKeyFirst (fun p => p.rif)
            (pruned.filter (fun p => !decide (p.rif ≤ threshold t.max_rif))) <;>
        simp only [hcold, hhot] at this <;> rw [← this]
    rw [hres]
    unfold removeStaleAndOverUsed at hrs
    by_cases hpanic : t.results.any (fun p => !p.isOverUsed && decide (now < p.timestamp))
    · rw [if_pos hpanic] at hrs
      exact absurd hrs (by simp)
    · rw [if_neg hpanic] at hrs
      injection hrs with hrs
      rw [← hrs]
      exact List.filter_sublist _

theorem addResult_tableInv (t : ProbeTable) (r : ProbeResult) (now : Nat)
    (t2 : ProbeTable)
    (hpw : t.results.Pairwise (fun a b => a.backend.handle ≠ b.backend.handle))
    (h : addResult t r now = some t2) : tableInv t2 := by
  unfold addResult at h
  rw [Option.map_eq_some'] at h
  obtain ⟨post, hpost, hf⟩ := h
  have ht2r : t2.results = evictLoop post (listMaxRif post) :=
    (congrArg ProbeTable.results hf).symm
  unfold postInsertList at hpost
  rw [Option.map_eq_some'] at hpost
  obtain ⟨pruned, hrs, hp⟩ := hpost
  have hprw : pruned.Pairwise (fun a b => a.backend.handle ≠ b.backend.handle) := by
    unfold removeStaleAndOverUsed at hrs
    by_cases hpanic : t.results.any (fun p => !p.isOverUsed && decide (now < p.timestamp))
    · rw [if_pos hpanic] at hrs
      exact absurd hrs (by simp)
    · rw [if_neg hpanic] at hrs
      injection hrs with hrs
      rw [← hrs]
      exact hpw.sublist (List.filter_sublist _)
  have hpostpw : post.Pairwise (fun a b => a.backend.handle ≠ b.backend.handle) := by
    rw [← hp, List.pairwise_append]
    refine ⟨hprw.sublist (List.filter_sublist _), List.pairwise_singleton _ _, ?_⟩
    intro a ha b hb
    rw [List.mem_singleton] at hb
    subst hb
    have := (List.mem_filter.mp ha).2
    simpa using this
  constructor
  · rw [ht2r]
    exact evictLoop_length post (listMaxRif post)
  · rw [ht2r]
    exact hpostpw.sublist (evictLoop_sublist post (listMaxRif post))

theorem applyOp_tableInv (t : ProbeTable) (op : TableOp) (t2 : ProbeTable)
    (hinv : tableInv t) (h : applyOp t op = some t2) : tableInv t2 := by
  cases op with
  | insert r now => exact addResult_tableInv t r now t2 hinv.2 h
  | select now =>
    simp only [applyOp, Option.map_eq_some'] at h
    obtain ⟨res, hfb, hsnd⟩ := h
    rw [← hsnd]
    exact tableInv_of_sublist _ t (findBest_results_sublist t now res hfb) hinv
  | purge b =>
    simp only [applyOp, Option.some.injEq] at h
    rw [← h]
    exact tableInv_of_sublist _ t (List.filter_sublist _) hinv
  | pruneStale now =>
    simp only [applyOp] at h
    unfold removeStale at h
    by_cases hpanic : t.results.any (fun p => decide (now < p.timestamp))
    · rw [if_pos hpanic] at h
      exact absurd h (by simp)
    · rw [if_neg hpanic] at h
      injection h with h
      rw [← h]
      exact tableInv_of_sublist _ t (List.filter_sublist _) hinv

theorem runOps_tableInv (ops : List TableOp) :
    ∀ t t2 : ProbeTable, tableInv t → runOps t ops = some t2 → tableInv t2 := by
  induction ops with
  | nil =>
    intro t t2 hinv h
    injection h with h
    rw [← h]
    exact hinv
  | cons op ops ih =>
    intro t t2 hinv h
    simp only [runOps, Option.bind_eq_some] at h
    obtain ⟨t3, hop, hrest⟩ := h
    exact ih t3 t2 (applyOp_tableInv t op t3 hinv hop) hrest

/-- C6: for every sequence of probe-table operations (`add_result`,
`find_best`, `purge_backend`, the pruning read `remove_stale`) run from the
empty table, every observable table state holds at most
`PROBE_TABLE_SIZE = 16` samples and no two of its samples share a backend
handle. -/
theorem claim6_theorem (ops : List TableOp) (t2 : ProbeTable)
    (h : runOps ProbeTable.empty ops = some t2) : tableInv t2 :=
  runOps_tableInv ops ProbeTable.empty t2
    ⟨Nat.zero_le _, List.Pairwise.nil⟩ h

/-- C6 witness: the invariant evaluated after a concrete sequence — two
inserts, a select and a purge starting from the empty table. -/
theorem claim6_witness : tableInv ⟨[⟨0, 2, 2, 0, exB2⟩], 2⟩ :=
  claim6_theorem
    [.insert exSample1 0, .insert ⟨0, 2, 2, 0, exB2⟩ 0, .select 0, .purge exB1]
    ⟨[⟨0, 2, 2, 0, exB2⟩], 2⟩ (by decide)

end Prequal
